import Mathlib

/-!
ArcadeSwap UI: event feed reconciliation and pair-address helpers.

A shallow embedding of `ui/src/components/EventsFeed.js` and
`ui/src/lib/computePairAddress.js`.

JavaScript values are embedded as follows.

* A chain-client log event is a record `Event`; `address`, `transactionHash`
  and `event` are strings (their declared type in the chain client),
  `blockNumber` and `logIndex` are integers.
* An array is a `List`; an array that may hold `null`/`undefined` entries is a
  `List (Option _)`.
* A plain object used as a dictionary is a `JSObject`: its own enumerable
  string-keyed properties in creation order.
* A function that may return `undefined` returns an `Option`; a computation
  that may throw or a promise that may reject is an `Except String _`.
-/

namespace ArcadeSwap

/-! ## Data model -/

/-- Decoded event arguments (`event.args`): the arguments in ABI order, each
with its ABI name and its value rendered as text. `args.amount0` is a lookup
by name, `args[2]` a lookup by position. -/
abbrev Args := List (String × String)

/-- Lookup by name: `args.name`; `none` stands for `undefined`. -/
def Args.byName (args : Args) (name : String) : Option String :=
  (args.find? (fun p => p.1 = name)).map Prod.snd

/-- Lookup by position: `args[i]`; `none` stands for `undefined`. -/
def Args.byIndex (args : Args) (i : Nat) : Option String :=
  (args.get? i).map Prod.snd

/-- A log event as delivered by the chain client, with the `pairID` field that
`addPairIDToEvents` attaches (`none` while it is still `undefined`). -/
structure Event where
  address : String
  transactionHash : String
  blockNumber : Int
  logIndex : Int
  event : String
  args : Args
  pairID : Option String
deriving DecidableEq, Repr

/-- A token of a tracked pair. -/
structure Token where
  address : String
  symbol : String
deriving DecidableEq, Repr

/-- A tracked pair descriptor (an entry of `pairs`). -/
structure Pair where
  address : String
  token0 : Token
  token1 : Token
deriving DecidableEq, Repr

/-! ## JavaScript objects used as dictionaries -/

/-- The own enumerable string-keyed properties of a plain object, in the order
in which they were created. -/
abbrev JSObject (α : Type) := List (String × α)

/-- Ordinary property write on own properties: an existing property keeps its
position and takes the new value, a new property is created last. -/
def JSObject.define {α : Type} : JSObject α → String → α → JSObject α
  | [], k, v => [(k, v)]
  | (k', v') :: rest, k, v =>
    if k' = k then (k', v) :: rest else (k', v') :: JSObject.define rest k v

/-- The assignment `obj[k] = v` on an object created by the literal `{}`.
Such an object inherits the accessor `__proto__` from `Object.prototype`, so
an assignment to the key `"__proto__"` runs that setter (ECMAScript,
`set Object.prototype.__proto__`: it replaces the prototype of the object) and
creates no own property, so `Object.keys` never lists that key; every other
key is an ordinary write. -/
def JSObject.assign {α : Type} (o : JSObject α) (k : String) (v : α) : JSObject α :=
  if k = "__proto__" then o else JSObject.define o k v

/-- The read `obj[k]` of an own property; `none` stands for `undefined`. -/
def JSObject.get {α : Type} (o : JSObject α) (k : String) : Option α :=
  (o.find? (fun p => p.1 = k)).map Prod.snd

/-- The numeric value of a string of decimal digits. -/
def indexValue (k : String) : Nat :=
  k.data.foldl (fun n c => 10 * n + (c.toNat - 48)) 0

/-- A property key is an array index when it is the canonical decimal form of
an integer below `2^32 - 1`. -/
def isArrayIndex (k : String) : Bool :=
  !k.data.isEmpty && k.data.all Char.isDigit
    && (k.data == ['0'] || k.data.head? != some '0')
    && decide (indexValue k < 4294967295)

/-- The result of `Object.keys(obj)`: array-index keys first, in ascending
numeric order, then the remaining string keys in creation order. -/
def JSObject.keys {α : Type} (o : JSObject α) : List String :=
  ((o.map Prod.fst).filter isArrayIndex).insertionSort
      (fun a b => indexValue a ≤ indexValue b)
    ++ (o.map Prod.fst).filter (fun k => !isArrayIndex k)

/-- The result of `arr.sort(cmp)` for a consistent comparator. The language
requires the result to be a rearrangement of the array in which `cmp(a, b) <= 0`
holds whenever `a` stands before `b`, and to be stable (elements that compare
equal keep their relative order); for a consistent comparator these
requirements determine the result, which is the one a stable insertion sort
computes. -/
def jsSort {α : Type} (cmp : α → α → Int) (xs : List α) : List α :=
  xs.insertionSort (fun a b => cmp a b ≤ 0)

/-! ## `EventsFeed.js` -/

/-- The outcome of the contract's `queryFilter(name, from, to)` promise:
rejected with an error, fulfilled with a missing (`null`/`undefined`) value,
or fulfilled with an array of events. -/
structure Contract where
  queryFilter : String → String → String → Except String (Option (List Event))

/-- Source function `getEvents`: both queries are awaited with `Promise.all`
and the results concatenated, a missing result counting as `[]`. When both
queries reject, the model reports the rejection of the first. -/
def getEvents (pair : Contract) : Except String (List Event) :=
  match pair.queryFilter "Mint" "earliest" "latest",
        pair.queryFilter "Swap" "earliest" "latest" with
  | .ok mints, .ok swaps => .ok (mints.getD [] ++ swaps.getD [])
  | .error err, _ => .error err
  | .ok _, .error err => .error err

/-- Source function `shortAddress`:
`address.slice(0, 6) + "..." + address.slice(-4)`; it throws on `undefined`. -/
def shortAddress (address : Option String) : Except String String :=
  match address with
  | none => .error "TypeError"
  | some a =>
    .ok (String.mk (a.data.take 6) ++ "..." ++ String.mk (a.data.drop (a.data.length - 4)))

/-- Source function `renderAmount`: a call of the library function
`ethers.utils.formatUnits`, which is a parameter of the model. -/
def renderAmount (formatUnits : Option String → Except String String)
    (amount : Option String) : Except String String :=
  formatUnits amount

/-- The `<span>` produced for an event: the label and the rendered values. -/
inductive Span where
  | mint (amount0 amount1 : String)
  | swap (usdc recipient : String)
deriving DecidableEq, Repr

/-- A table row `<tr key=i><td>pairID</td><td>content</td></tr>`. -/
structure Row where
  key : Nat
  pairID : Option String
  content : Span
deriving DecidableEq, Repr

/-- Source function `renderMint`. -/
def renderMint (formatUnits : Option String → Except String String)
    (args : Args) : Except String Span := do
  let amount0 ← renderAmount formatUnits (args.byName "amount0")
  let amount1 ← renderAmount formatUnits (args.byName "amount1")
  pure (Span.mint amount0 amount1)

/-- Source function `renderSwap`. -/
def renderSwap (formatUnits : Option String → Except String String)
    (args : Args) : Except String Span := do
  let usdc ← renderAmount formatUnits (args.byIndex 2)
  let recipient ← shortAddress (args.byIndex 3)
  pure (Span.swap usdc recipient)

/-- Source function `renderEvent`: a row for a `Mint` or `Swap` event, and
`undefined` (here `none`) for every other kind. -/
def renderEvent (formatUnits : Option String → Except String String)
    (event : Event) (i : Nat) : Except String (Option Row) :=
  if event.event = "Mint" then do
    let content ← renderMint formatUnits event.args
    pure (some ⟨i, event.pairID, content⟩)
  else if event.event = "Swap" then do
    let content ← renderSwap formatUnits event.args
    pure (some ⟨i, event.pairID, content⟩)
  else
    pure none

/-- Source function `isSupportedEvent`. -/
def isSupportedEvent (event : Event) : Bool :=
  event.event = "Mint" || event.event = "Swap"

/-- The key under which `cleanEvents` stores an event:
the template string of `address`, an underscore and `transactionHash`. -/
def eventKey (event : Event) : String :=
  event.address ++ "_" ++ event.transactionHash

/-- The format of the address of a log event, as far as its key depends on it:
the chain client delivers `address` as `0x` followed by 40 hexadecimal digits,
so the address is never empty and contains no underscore. -/
def hasChainAddress (event : Event) : Bool :=
  !event.address.data.isEmpty && event.address.data.all (fun c => c != '_')

/-- The comparator passed to `sort` in `cleanEvents`:
`b.blockNumber - a.blockNumber || b.logIndex - a.logIndex`. -/
def compareEvents (a b : Event) : Int :=
  if b.blockNumber - a.blockNumber ≠ 0 then b.blockNumber - a.blockNumber
  else b.logIndex - a.logIndex

/-- The object `eventsMap` built by the `reduce` in `cleanEvents`. -/
def eventsMap (events : List Event) : JSObject Event :=
  events.foldl (fun acc event => acc.assign (eventKey event) event) []

/-- Source function `cleanEvents`. Every key returned by `Object.keys` is an
own property, so the reads `eventsMap[k]` are all defined. -/
def cleanEvents (events : List Event) : List Event :=
  jsSort compareEvents
    ((eventsMap events).keys.filterMap (fun k => (eventsMap events).get k))

/-- The last event of a list that is stored under the key `k`, if there is
one (a specification function, used to state which event a key retains). -/
def lastWithKey (k : String) (events : List Event) : Option Event :=
  (events.filter (fun x => eventKey x = k)).getLast?

/-- A reducer action with its fields `type` and `value`. -/
structure Action where
  type : String
  value : List Event
deriving DecidableEq, Repr

/-- Source function `eventsReducer`; `none` stands for the `undefined` returned
for an unknown action type. -/
def eventsReducer (state : List Event) (action : Action) : Option (List Event) :=
  if action.type = "add" then some (cleanEvents (state ++ action.value)) else none

/-- The callback of `Array.prototype.map`, applied from left to right with the
index of each element; the first exception ends the traversal. -/
def mapWithIndex {β : Type} (f : Event → Nat → Except String β) :
    Nat → List Event → Except String (List β)
  | _, [] => .ok []
  | i, e :: es => do
    let r ← f e i
    let rs ← mapWithIndex f (i + 1) es
    pure (r :: rs)

/-- Source component `EventsList`: the children of `<tbody>`, that is
`events.filter(isSupportedEvent).map(renderEvent)`. -/
def EventsList (formatUnits : Option String → Except String String)
    (events : List Event) : Except String (List (Option Row)) :=
  mapWithIndex (renderEvent formatUnits) 0 (events.filter isSupportedEvent)

/-- Source function `pairID`. -/
def pairID (pair : Pair) : String :=
  pair.token0.symbol ++ "/" ++ pair.token1.symbol

/-- Source function `addPairIDToEvents`: falsy entries are filtered out and
each remaining event gets its `pairID` field set. -/
def addPairIDToEvents (events : List (Option Event)) (pair : Pair) : List Event :=
  (events.filterMap id).map (fun ev => { ev with pairID := some (pairID pair) })

/-- Source constant `pairs`; the pair address comes from `config.js`, which is
a parameter of the model. -/
def pairs (ethUsdcPair : String) : List Pair :=
  [⟨ethUsdcPair,
    ⟨"0xCf7Ed3AccA5a467e9e704C703E8D87F634fB0Fc9", "ETH"⟩,
    ⟨"0xDc64a140Aa3E981100a9becA4E685f962f0cF6C9", "USDC"⟩⟩]

/-! ## `computePairAddress.js` -/

/-- Source constant `pairCodeHash` of `lib/constants.js`. -/
def pairCodeHash : String :=
  "0xdcfe4762e3a571007d8629d1e6a9d3bbb10f19a309c88f80c88a995c89753f81"

/-- The method `String.prototype.toLowerCase`, on ASCII text. -/
def toLowerCase (s : String) : String :=
  String.mk (s.data.map Char.toLower)

/-- The text to which the function object `String.prototype.toLowerCase` is
converted when it is an operand of `<`: the language fixes the shape
`function name() { [native code] }` of the text of a built-in function. -/
def toLowerCaseFunctionText : String :=
  "function toLowerCase() \x7b [native code] \x7d"

/-- The comparison of two lists of code units by `<`: the first position at
which they differ decides, and a proper initial segment is smaller. -/
def codeUnitsLt : List Char → List Char → Bool
  | _, [] => false
  | [], _ :: _ => true
  | x :: xs, y :: ys =>
    if x.toNat < y.toNat then true
    else if y.toNat < x.toNat then false
    else codeUnitsLt xs ys

/-- The operator `<` on two strings (text of the Basic Multilingual Plane,
where code units and code points coincide). -/
def jsStringLt (a b : String) : Bool :=
  codeUnitsLt a.data b.data

/-- Source function `sortTokens`. The right operand of `<` is written
`tokenB.toLowerCase`, without a call: it is the function object, which `<`
converts to its text before comparing the two strings. -/
def sortTokens (tokenA tokenB : String) : String × String :=
  if jsStringLt (toLowerCase tokenA) toLowerCaseFunctionText then (tokenA, tokenB)
  else (tokenB, tokenA)

/-- The three `ethers.utils` functions that `computePairAddress` calls. -/
structure Ethers where
  getCreate2Address : String → String → String → String
  keccak256 : String → String
  solidityPack : List String → List String → String

/-- Source function `computePairAddress`. -/
def computePairAddress (ethers : Ethers) (factory tokenA tokenB : String) : String :=
  let sorted := sortTokens tokenA tokenB
  ethers.getCreate2Address factory
    (ethers.keccak256 (ethers.solidityPack ["address", "address"] [sorted.1, sorted.2]))
    pairCodeHash

/-! ## Sample data -/

/-- A `Mint` event of the tracked pair contract. -/
def sampleMint : Event :=
  ⟨"0xe7f1725E", "0x3a51", 5, 0, "Mint",
    [("sender", "0x70997970C51812dc"), ("amount0", "1000"), ("amount1", "2000")], none⟩

/-- The same transaction as `sampleMint`, as the live subscription delivers it
after tagging. -/
def sampleMintLive : Event :=
  { sampleMint with pairID := some "ETH/USDC" }

/-- A `Swap` event of the tracked pair contract, in a later block. -/
def sampleSwap : Event :=
  ⟨"0xe7f1725E", "0x9c02", 6, 2, "Swap",
    [("sender", "0x70997970C51812dc"), ("amount0Out", "0"), ("amount1Out", "150"),
      ("to", "0x3C44CdDdB6a900fa2b585dd299e03d12FA4293BC")], none⟩

/-- An event of a kind that the feed does not render. -/
def sampleSync : Event :=
  ⟨"0xe7f1725E", "0x77d0", 6, 1, "Sync", [], none⟩

/-- A stand-in for `ethers.utils.formatUnits` that returns the given text and
throws on `undefined`. -/
def sampleFormatUnits : Option String → Except String String
  | some s => .ok s
  | none => .error "invalid BigNumber value"

/-- A contract whose `Mint` query resolves to `null` and whose `Swap` query
resolves to an empty array. -/
def emptyContract : Contract :=
  ⟨fun name _ _ => if name = "Mint" then .ok none else .ok (some [])⟩

/-- The address of the `USDC` token of `pairs`. -/
def usdcToken : String := "0xDc64a140Aa3E981100a9becA4E685f962f0cF6C9"

/-- The address of the `ETH` token of `pairs`. -/
def ethToken : String := "0xCf7Ed3AccA5a467e9e704C703E8D87F634fB0Fc9"

/-! ## Dictionary lemmas -/

theorem JSObject.define_map_fst {α : Type} (o : JSObject α) (k : String) (v : α) :
    (JSObject.define o k v).map Prod.fst
      = if k ∈ o.map Prod.fst then o.map Prod.fst else o.map Prod.fst ++ [k] := by
  induction o with
  | nil => simp [JSObject.define]
  | cons p rest ih =>
    obtain ⟨k', v'⟩ := p
    by_cases h : k' = k
    · simp [JSObject.define, h]
    · have h' : ¬ k = k' := fun e => h e.symm
      simp only [JSObject.define, h, if_false, List.map_cons, ih, List.mem_cons, h', false_or]
      split <;> simp

theorem JSObject.get_define {α : Type} (o : JSObject α) (k : String) (v : α) (k' : String) :
    (JSObject.define o k v).get k' = if k' = k then some v else o.get k' := by
  induction o with
  | nil =>
    by_cases h : k' = k
    · simp [JSObject.define, JSObject.get, h]
    · have h' : ¬ k = k' := fun e => h e.symm
      simp [JSObject.define, JSObject.get, h, h']
  | cons p rest ih =>
    obtain ⟨k1, v1⟩ := p
    by_cases h : k1 = k
    · subst h
      by_cases h2 : k' = k1
      · simp [JSObject.define, JSObject.get, h2]
      · have h2' : ¬ k1 = k' := fun e => h2 e.symm
        simp [JSObject.define, JSObject.get, h2, h2']
    · by_cases h2 : k1 = k'
      · subst h2
        simp [JSObject.define, JSObject.get, h]
      · have ih' := ih
        simp only [JSObject.get] at ih'
        simp [JSObject.define, JSObject.get, h, h2, ih']

theorem JSObject.get_eq_some_iff {α : Type} (o : JSObject α)
    (hnd : (o.map Prod.fst).Nodup) (k : String) (v : α) :
    o.get k = some v ↔ (k, v) ∈ o := by
  induction o with
  | nil => simp [JSObject.get]
  | cons p rest ih =>
    obtain ⟨k1, v1⟩ := p
    simp only [List.map_cons, List.nodup_cons] at hnd
    have ih' := ih hnd.2
    simp only [JSObject.get] at ih'
    by_cases h : k1 = k
    · subst h
      have hno : (k1, v) ∉ rest := fun hm => hnd.1 (List.mem_map_of_mem Prod.fst hm)
      simp [JSObject.get, hno, eq_comm]
    · have h' : ¬ k = k1 := fun e => h e.symm
      simp [JSObject.get, h, h', ih']

theorem JSObject.values_by_keys {α : Type} (o : JSObject α)
    (hnd : (o.map Prod.fst).Nodup) :
    (o.map Prod.fst).filterMap (fun k => o.get k) = o.map Prod.snd := by
  rw [List.filterMap_map]
  have h : ∀ p ∈ o, ((fun k => o.get k) ∘ Prod.fst) p = some p.2 := by
    intro p hp
    exact (JSObject.get_eq_some_iff o hnd p.1 p.2).2 hp
  rw [List.filterMap_congr h]
  have hmap : ∀ l : List (String × α), l.filterMap (fun x => some x.2) = l.map Prod.snd := by
    intro l
    induction l with
    | nil => rfl
    | cons a l ih => simp [ih]
  exact hmap o

theorem JSObject.keys_eq_of_no_index {α : Type} (o : JSObject α)
    (h : ∀ k ∈ o.map Prod.fst, isArrayIndex k = false) :
    o.keys = o.map Prod.fst := by
  have h1 : (o.map Prod.fst).filter isArrayIndex = [] := by
    rw [List.filter_eq_nil_iff]
    intro k hk
    simp [h k hk]
  have h2 : (o.map Prod.fst).filter (fun k => !isArrayIndex k) = o.map Prod.fst := by
    rw [List.filter_eq_self]
    intro k hk
    simp [h k hk]
  simp [JSObject.keys, h1, h2]

theorem isArrayIndex_eventKey (e : Event) : isArrayIndex (eventKey e) = false := by
  have h : (eventKey e).data.all Char.isDigit = false := by
    rw [List.all_eq_false]
    refine ⟨'_', ?_, by decide⟩
    simp [eventKey]
  simp [isArrayIndex, h]

/-! ## The dictionary built by `cleanEvents` -/

theorem eventsMap_concat (xs : List Event) (x : Event) :
    eventsMap (xs ++ [x]) = (eventsMap xs).assign (eventKey x) x := by
  simp [eventsMap, List.foldl_append]

theorem eventsMap_nodup (xs : List Event) : ((eventsMap xs).map Prod.fst).Nodup := by
  induction xs using List.reverseRecOn with
  | nil => simp [eventsMap]
  | append_singleton xs x ih =>
    rw [eventsMap_concat]
    unfold JSObject.assign
    split
    · exact ih
    · rw [JSObject.define_map_fst]
      split
      · exact ih
      · rename_i hk
        rw [List.nodup_append]
        refine ⟨ih, List.nodup_singleton _, ?_⟩
        intro a ha hb
        rw [List.mem_singleton] at hb
        exact hk (hb ▸ ha)

theorem lastWithKey_concat (k : String) (xs : List Event) (x : Event) :
    lastWithKey k (xs ++ [x]) = if eventKey x = k then some x else lastWithKey k xs := by
  unfold lastWithKey
  rw [List.filter_append]
  by_cases h : eventKey x = k
  · simp [h, List.filter_cons]
  · simp [h, List.filter_cons]

theorem lastWithKey_some {k : String} {xs : List Event} {v : Event}
    (h : lastWithKey k xs = some v) : v ∈ xs ∧ eventKey v = k := by
  have hm := List.mem_of_getLast?_eq_some h
  rw [List.mem_filter] at hm
  exact ⟨hm.1, by simpa using hm.2⟩

theorem eventsMap_get (xs : List Event) (k : String) :
    (eventsMap xs).get k = if k = "__proto__" then none else lastWithKey k xs := by
  induction xs using List.reverseRecOn with
  | nil => simp [eventsMap, JSObject.get, lastWithKey]
  | append_singleton xs x ih =>
    rw [eventsMap_concat, lastWithKey_concat]
    unfold JSObject.assign
    by_cases hp : eventKey x = "__proto__"
    · rw [if_pos hp, ih]
      by_cases hk : k = "__proto__"
      · simp [hk]
      · have hne : ¬ eventKey x = k := fun e => hk (e ▸ hp)
        simp [hk, hne]
    · rw [if_neg hp, JSObject.get_define, ih]
      by_cases hk : k = eventKey x
      · subst hk
        simp [hp]
      · have hne : ¬ eventKey x = k := fun e => hk e.symm
        simp [hk, hne]

theorem mem_eventsMap_iff (xs : List Event) (k : String) (v : Event) :
    (k, v) ∈ eventsMap xs ↔ k ≠ "__proto__" ∧ lastWithKey k xs = some v := by
  rw [← JSObject.get_eq_some_iff _ (eventsMap_nodup xs), eventsMap_get]
  by_cases hk : k = "__proto__"
  · simp [hk]
  · simp [hk]

theorem eventsMap_key_eq {xs : List Event} {p : String × Event}
    (h : p ∈ eventsMap xs) : p.1 = eventKey p.2 := by
  have h' := (mem_eventsMap_iff xs p.1 p.2).1 h
  exact (lastWithKey_some h'.2).2.symm

theorem eventsMap_keys (xs : List Event) :
    (eventsMap xs).keys = (eventsMap xs).map Prod.fst := by
  apply JSObject.keys_eq_of_no_index
  intro k hk
  rw [List.mem_map] at hk
  obtain ⟨p, hp, rfl⟩ := hk
  rw [eventsMap_key_eq hp]
  exact isArrayIndex_eventKey p.2

/-- Before sorting, `cleanEvents` holds the values of the dictionary in the
order in which their keys were created. -/
theorem cleanEvents_eq (xs : List Event) :
    cleanEvents xs = jsSort compareEvents ((eventsMap xs).map Prod.snd) := by
  unfold cleanEvents
  rw [eventsMap_keys, JSObject.values_by_keys _ (eventsMap_nodup xs)]

theorem cleanEvents_perm (xs : List Event) :
    (cleanEvents xs).Perm ((eventsMap xs).map Prod.snd) := by
  rw [cleanEvents_eq]
  exact List.perm_insertionSort _ _

theorem mem_cleanEvents_iff (xs : List Event) (y : Event) :
    y ∈ cleanEvents xs ↔ eventKey y ≠ "__proto__" ∧ lastWithKey (eventKey y) xs = some y := by
  rw [(cleanEvents_perm xs).mem_iff, List.mem_map]
  constructor
  · rintro ⟨p, hp, rfl⟩
    have hk := eventsMap_key_eq hp
    rw [← hk]
    exact (mem_eventsMap_iff xs p.1 p.2).1 hp
  · intro h
    exact ⟨(eventKey y, y), (mem_eventsMap_iff xs _ _).2 h, rfl⟩

theorem cleanEvents_keys_nodup (xs : List Event) :
    ((cleanEvents xs).map eventKey).Nodup := by
  have hperm := (cleanEvents_perm xs).map eventKey
  rw [hperm.nodup_iff, List.map_map]
  have h : (eventsMap xs).map (eventKey ∘ Prod.snd) = (eventsMap xs).map Prod.fst := by
    apply List.map_congr_left
    intro p hp
    exact (eventsMap_key_eq hp).symm
  rw [h]
  exact eventsMap_nodup xs

/-! ## Consequences for `cleanEvents` and `eventsReducer` -/

theorem eventsReducer_add (state incoming : List Event) :
    eventsReducer state ⟨"add", incoming⟩ = some (cleanEvents (state ++ incoming)) := by
  simp [eventsReducer]

theorem cleanEvents_subset {xs : List Event} {y : Event} (h : y ∈ cleanEvents xs) :
    y ∈ xs :=
  (lastWithKey_some ((mem_cleanEvents_iff xs y).1 h).2).1

theorem lastWithKey_exists {xs : List Event} {x : Event} (h : x ∈ xs) :
    ∃ y, lastWithKey (eventKey x) xs = some y := by
  have hne : xs.filter (fun z => eventKey z = eventKey x) ≠ [] := by
    intro hnil
    have hx : x ∈ xs.filter (fun z => eventKey z = eventKey x) := by
      rw [List.mem_filter]
      exact ⟨h, by simp⟩
    rw [hnil] at hx
    exact List.not_mem_nil _ hx
  have hs : (lastWithKey (eventKey x) xs).isSome := by
    unfold lastWithKey
    rw [List.getLast?_isSome]
    exact hne
  exact Option.isSome_iff_exists.1 hs

theorem filter_key_eq_singleton (out : List Event) (e : Event)
    (hnd : (out.map eventKey).Nodup) (he : e ∈ out) :
    out.filter (fun x => eventKey x = eventKey e) = [e] := by
  induction out with
  | nil => exact absurd he (List.not_mem_nil _)
  | cons a l ih =>
    rw [List.map_cons, List.nodup_cons] at hnd
    rcases List.mem_cons.1 he with rfl | hl
    · have hrest : l.filter (fun x => eventKey x = eventKey e) = [] := by
        rw [List.filter_eq_nil_iff]
        intro x hx hk
        exact hnd.1 ((of_decide_eq_true hk) ▸ List.mem_map_of_mem eventKey hx)
      simp [List.filter_cons, hrest]
    · have hne : ¬ eventKey a = eventKey e := by
        intro hk
        exact hnd.1 (hk ▸ List.mem_map_of_mem eventKey hl)
      simp [List.filter_cons, hne, ih hnd.2 hl]

theorem compareEvents_total (a b : Event) :
    compareEvents a b ≤ 0 ∨ compareEvents b a ≤ 0 := by
  unfold compareEvents
  split_ifs <;> omega

theorem compareEvents_trans (a b c : Event)
    (hab : compareEvents a b ≤ 0) (hbc : compareEvents b c ≤ 0) :
    compareEvents a c ≤ 0 := by
  unfold compareEvents at *
  split_ifs at * <;> omega

theorem compareEvents_le_zero_iff (a b : Event) :
    compareEvents a b ≤ 0 ↔
      a.blockNumber > b.blockNumber ∨
        (a.blockNumber = b.blockNumber ∧ a.logIndex ≥ b.logIndex) := by
  unfold compareEvents
  split_ifs <;> omega

theorem jsSort_compareEvents_sorted (xs : List Event) :
    (jsSort compareEvents xs).Sorted (fun a b => compareEvents a b ≤ 0) := by
  haveI : IsTotal Event (fun a b => compareEvents a b ≤ 0) := ⟨compareEvents_total⟩
  haveI : IsTrans Event (fun a b => compareEvents a b ≤ 0) := ⟨compareEvents_trans⟩
  exact List.sorted_insertionSort _ xs

/-- C1: the list returned by `cleanEvents`, and so the list returned by
`eventsReducer` for an `add` action on any state and any incoming batch, holds
no two entries with the same event key. -/
theorem cleanEvents_no_duplicate_keys (xs state incoming : List Event) :
    (cleanEvents xs).Pairwise (fun a b => eventKey a ≠ eventKey b) ∧
    ∃ out, eventsReducer state ⟨"add", incoming⟩ = some out ∧
      out.Pairwise (fun a b => eventKey a ≠ eventKey b) := by
  refine ⟨List.pairwise_map.1 (cleanEvents_keys_nodup xs), _, eventsReducer_add state incoming, ?_⟩
  exact List.pairwise_map.1 (cleanEvents_keys_nodup _)

/-- C2: whatever the order of the input, every two adjacent entries `a`, `b` of
the list returned by `cleanEvents` satisfy `a.blockNumber > b.blockNumber`, or
`a.blockNumber = b.blockNumber` and `a.logIndex >= b.logIndex`. -/
theorem cleanEvents_sorted (xs : List Event) :
    (cleanEvents xs).Chain' (fun a b =>
      a.blockNumber > b.blockNumber ∨
        (a.blockNumber = b.blockNumber ∧ a.logIndex ≥ b.logIndex)) := by
  rw [cleanEvents_eq]
  have h := (jsSort_compareEvents_sorted ((eventsMap xs).map Prod.snd)).chain'
  exact h.imp (fun a b hab => (compareEvents_le_zero_iff a b).1 hab)

/-! ## Keys of chain events -/

theorem append_sep_inj (c : Char) :
    ∀ (a a' t t' : List Char), c ∉ a → c ∉ a' → a ++ c :: t = a' ++ c :: t' →
      a = a' ∧ t = t' := by
  intro a
  induction a with
  | nil =>
    intro a' t t' _ ha' h
    cases a' with
    | nil => exact ⟨rfl, by simpa using h⟩
    | cons y ys =>
      simp only [List.nil_append, List.cons_append, List.cons.injEq] at h
      exact absurd (h.1 ▸ List.mem_cons_self _ _) ha'
  | cons x xs ih =>
    intro a' t t' ha ha' h
    cases a' with
    | nil =>
      simp only [List.nil_append, List.cons_append, List.cons.injEq] at h
      exact absurd (h.1 ▸ List.mem_cons_self _ _) ha
    | cons y ys =>
      simp only [List.cons_append, List.cons.injEq] at h
      have hxs : c ∉ xs := fun hm => ha (List.mem_cons_of_mem _ hm)
      have hys : c ∉ ys := fun hm => ha' (List.mem_cons_of_mem _ hm)
      obtain ⟨h1, h2⟩ := ih ys t t' hxs hys h.2
      exact ⟨by rw [h.1, h1], h2⟩

/-- Events whose addresses contain no underscore (such as hexadecimal chain
addresses) have the same key only if they have the same address and the same
transaction hash. -/
theorem eventKey_inj_of_address (x e : Event)
    (hx : '_' ∉ x.address.data) (he : '_' ∉ e.address.data)
    (h : eventKey x = eventKey e) :
    x.address = e.address ∧ x.transactionHash = e.transactionHash := by
  have hd := congrArg String.data h
  simp only [eventKey, String.data_append] at hd
  have hd' : x.address.data ++ '_' :: x.transactionHash.data
      = e.address.data ++ '_' :: e.transactionHash.data := by
    simpa using hd
  obtain ⟨h1, h2⟩ := append_sep_inj '_' _ _ _ _ hx he hd'
  exact ⟨String.ext h1, String.ext h2⟩

/-- The key of an event whose address is not empty and contains no underscore
(such as a hexadecimal chain address) is not `"__proto__"`. -/
theorem eventKey_ne_proto_of_address (e : Event)
    (h0 : e.address ≠ "") (hu : '_' ∉ e.address.data) :
    eventKey e ≠ "__proto__" := by
  intro h
  have hd := congrArg String.data h
  simp only [eventKey, String.data_append] at hd
  cases ha : e.address.data with
  | nil => exact h0 (String.ext ha)
  | cons c cs =>
    rw [ha] at hd hu
    have hc : c = '_' := by
      have := congrArg List.head? hd
      simpa using this
    exact hu (hc ▸ List.mem_cons_self _ _)

theorem hasChainAddress_iff (e : Event) :
    hasChainAddress e = true ↔ e.address ≠ "" ∧ '_' ∉ e.address.data := by
  have hne : e.address ≠ "" ↔ e.address.data ≠ [] := by
    constructor
    · intro h hd
      exact h (String.ext hd)
    · intro h he
      exact h (by rw [he])
  rw [hne]
  simp only [hasChainAddress, Bool.and_eq_true, Bool.not_eq_true', List.isEmpty_eq_false,
    List.all_eq_true, bne_iff_ne, ne_eq]
  constructor
  · rintro ⟨h1, h2⟩
    exact ⟨h1, fun hm => h2 _ hm rfl⟩
  · rintro ⟨h1, h2⟩
    exact ⟨h1, fun c hc hcu => h2 (hcu ▸ hc)⟩

/-- An address made of `0x` and letters or digits, such as the hexadecimal
address of a contract, has the format that `hasChainAddress` asks for. -/
theorem hasChainAddress_of_hex (e : Event) (ds : List Char)
    (h : e.address.data = '0' :: 'x' :: ds) (hd : ∀ c ∈ ds, c.isAlphanum = true) :
    hasChainAddress e = true := by
  rw [hasChainAddress_iff]
  constructor
  · intro he
    rw [he] at h
    exact absurd h (by simp)
  · rw [h]
    intro hm
    rcases List.mem_cons.1 hm with h0 | hm
    · exact absurd h0 (by decide)
    · rcases List.mem_cons.1 hm with h1 | hm
      · exact absurd h1 (by decide)
      · exact absurd (hd _ hm) (by decide)

theorem eventKey_ne_proto_of_chain {e : Event} (h : hasChainAddress e = true) :
    eventKey e ≠ "__proto__" :=
  eventKey_ne_proto_of_address e ((hasChainAddress_iff e).1 h).1 ((hasChainAddress_iff e).1 h).2

theorem eventKey_inj_of_chain {x e : Event} (hx : hasChainAddress x = true)
    (he : hasChainAddress e = true) (h : eventKey x = eventKey e) :
    x.address = e.address ∧ x.transactionHash = e.transactionHash :=
  eventKey_inj_of_address x e ((hasChainAddress_iff x).1 hx).2 ((hasChainAddress_iff e).1 he).2 h

theorem sameKey_of_sameTransaction {x e : Event} (ha : x.address = e.address)
    (ht : x.transactionHash = e.transactionHash) : eventKey x = eventKey e := by
  simp [eventKey, ha, ht]

/-- When the entries of `out` have distinct keys, `y` is one of them, and among
the entries of `out` having the key of `y` means having the address and
transaction hash of `e`, exactly one entry has that address and hash. -/
theorem count_sameTransaction (out : List Event) (e y : Event)
    (hnd : (out.map eventKey).Nodup) (hy : y ∈ out)
    (hiff : ∀ x ∈ out, eventKey x = eventKey y ↔
      (x.address = e.address ∧ x.transactionHash = e.transactionHash)) :
    (out.filter (fun x => x.address = e.address ∧
      x.transactionHash = e.transactionHash)).length = 1 := by
  have hfilter : out.filter (fun x => decide (x.address = e.address ∧
      x.transactionHash = e.transactionHash))
      = out.filter (fun x => decide (eventKey x = eventKey y)) := by
    apply List.filter_congr
    intro x hx
    exact decide_eq_decide.2 (hiff x hx).symm
  rw [hfilter, filter_key_eq_singleton out y hnd hy]
  rfl

/-- The two merge orders leave exactly one entry for the transaction of `e`
when the key of `e` is stored and identifies, among the events of `H`, the
address and transaction hash of `e`. -/
theorem one_entry_of_key (H : List Event) (e h : Event)
    (hh : h ∈ H) (ha : h.address = e.address)
    (ht : h.transactionHash = e.transactionHash)
    (hp : eventKey e ≠ "__proto__")
    (hinj : ∀ x ∈ H, eventKey x = eventKey e →
      x.address = e.address ∧ x.transactionHash = e.transactionHash) :
    (∃ s1 s2, eventsReducer [] ⟨"add", H⟩ = some s1 ∧
      eventsReducer s1 ⟨"add", [e]⟩ = some s2 ∧
      (s2.filter (fun x => x.address = e.address ∧
        x.transactionHash = e.transactionHash)).length = 1) ∧
    (∃ s1 s2, eventsReducer [] ⟨"add", [e]⟩ = some s1 ∧
      eventsReducer s1 ⟨"add", H⟩ = some s2 ∧
      (s2.filter (fun x => x.address = e.address ∧
        x.transactionHash = e.transactionHash)).length = 1) := by
  have hkey : ∀ s : List Event, (∀ x ∈ s, x = e ∨ x ∈ H) →
      ∀ x ∈ s, eventKey x = eventKey e ↔
        (x.address = e.address ∧ x.transactionHash = e.transactionHash) := by
    intro s hs x hx
    constructor
    · intro hk
      rcases hs x hx with rfl | hxH
      · exact ⟨rfl, rfl⟩
      · exact hinj x hxH hk
    · intro hx2
      exact sameKey_of_sameTransaction hx2.1 hx2.2
  constructor
  · refine ⟨_, _, eventsReducer_add [] H, eventsReducer_add _ [e], ?_⟩
    have hlast : lastWithKey (eventKey e) (cleanEvents ([] ++ H) ++ [e]) = some e := by
      rw [lastWithKey_concat]
      simp
    have hmem : e ∈ cleanEvents (cleanEvents ([] ++ H) ++ [e]) :=
      (mem_cleanEvents_iff _ e).2 ⟨hp, hlast⟩
    apply count_sameTransaction _ e e (cleanEvents_keys_nodup _) hmem
    apply hkey
    intro x hx
    have hx' := cleanEvents_subset hx
    rcases List.mem_append.1 hx' with h1 | h1
    · right
      simpa using cleanEvents_subset h1
    · left
      simpa using h1
  · refine ⟨_, _, eventsReducer_add [] [e], eventsReducer_add _ H, ?_⟩
    have hhk : eventKey h = eventKey e := sameKey_of_sameTransaction ha ht
    have hin : h ∈ cleanEvents ([] ++ [e]) ++ H := List.mem_append_right _ hh
    obtain ⟨y, hy⟩ := lastWithKey_exists hin
    rw [hhk] at hy
    have hyk : eventKey y = eventKey e := (lastWithKey_some hy).2
    have hmem : y ∈ cleanEvents (cleanEvents ([] ++ [e]) ++ H) := by
      refine (mem_cleanEvents_iff _ y).2 ⟨?_, ?_⟩
      · rw [hyk]
        exact hp
      · rw [hyk]
        exact hy
    have hsub : ∀ x ∈ cleanEvents (cleanEvents ([] ++ [e]) ++ H), x = e ∨ x ∈ H := by
      intro x hx
      have hx' := cleanEvents_subset hx
      rcases List.mem_append.1 hx' with h1 | h1
      · left
        simpa using cleanEvents_subset h1
      · right
        exact h1
    apply count_sameTransaction _ e y (cleanEvents_keys_nodup _) hmem
    intro x hx
    rw [hyk]
    exact hkey _ hsub x hx

/-- The entry kept under a stored key is the last event with that key. -/
theorem last_write_wins_of_key (state incoming : List Event) (k : String) (e : Event)
    (hk : k ≠ "__proto__") (hl : lastWithKey k (state ++ incoming) = some e) :
    ∃ out, eventsReducer state ⟨"add", incoming⟩ = some out ∧
      out.filter (fun x => eventKey x = k) = [e] := by
  refine ⟨_, eventsReducer_add state incoming, ?_⟩
  have hek : eventKey e = k := (lastWithKey_some hl).2
  subst hek
  have hmem : e ∈ cleanEvents (state ++ incoming) :=
    (mem_cleanEvents_iff _ e).2 ⟨hk, hl⟩
  exact filter_key_eq_singleton _ e (cleanEvents_keys_nodup _) hmem

/-- C3: for every historical batch `H` and every live event `e` of the chain
such that some event of `H` has the address and transaction hash of `e`,
adding `H` and then `[e]` to the empty list, and likewise adding `[e]` and then
`H`, leaves exactly one entry with that address and transaction hash. -/
theorem merge_duplicate_transaction (H : List Event) (e h : Event)
    (hh : h ∈ H) (ha : h.address = e.address)
    (ht : h.transactionHash = e.transactionHash)
    (hce : hasChainAddress e = true) (hcH : ∀ x ∈ H, hasChainAddress x = true) :
    (∃ s1 s2, eventsReducer [] ⟨"add", H⟩ = some s1 ∧
      eventsReducer s1 ⟨"add", [e]⟩ = some s2 ∧
      (s2.filter (fun x => x.address = e.address ∧
        x.transactionHash = e.transactionHash)).length = 1) ∧
    (∃ s1 s2, eventsReducer [] ⟨"add", [e]⟩ = some s1 ∧
      eventsReducer s1 ⟨"add", H⟩ = some s2 ∧
      (s2.filter (fun x => x.address = e.address ∧
        x.transactionHash = e.transactionHash)).length = 1) :=
  one_entry_of_key H e h hh ha ht (eventKey_ne_proto_of_chain hce)
    (fun x hx hk => eventKey_inj_of_chain (hcH x hx) hce hk)

/-- C4: deduplication is last-write-wins. For every state and incoming list of
chain events and every key `k` occurring in `state ++ incoming`, the list
returned by `eventsReducer` for the `add` action has exactly one entry with key
`k`, and it is the last event of `state ++ incoming` with that key, whatever
the other fields of the events it replaces. -/
theorem merge_last_write_wins (state incoming : List Event) (k : String) (e : Event)
    (hchain : ∀ x ∈ state ++ incoming, hasChainAddress x = true)
    (hl : lastWithKey k (state ++ incoming) = some e) :
    ∃ out, eventsReducer state ⟨"add", incoming⟩ = some out ∧
      out.filter (fun x => eventKey x = k) = [e] := by
  have he := lastWithKey_some hl
  have hk : k ≠ "__proto__" := by
    rw [← he.2]
    exact eventKey_ne_proto_of_chain (hchain e he.1)
  exact last_write_wins_of_key state incoming k e hk hl

/-- C3, witness: a historical batch holding `sampleMint` and the live copy of
the same transaction. -/
theorem merge_duplicate_transaction_witness :
    (∃ s1 s2, eventsReducer [] ⟨"add", [sampleMint, sampleSwap]⟩ = some s1 ∧
      eventsReducer s1 ⟨"add", [sampleMintLive]⟩ = some s2 ∧
      (s2.filter (fun x => x.address = sampleMintLive.address ∧
        x.transactionHash = sampleMintLive.transactionHash)).length = 1) ∧
    (∃ s1 s2, eventsReducer [] ⟨"add", [sampleMintLive]⟩ = some s1 ∧
      eventsReducer s1 ⟨"add", [sampleMint, sampleSwap]⟩ = some s2 ∧
      (s2.filter (fun x => x.address = sampleMintLive.address ∧
        x.transactionHash = sampleMintLive.transactionHash)).length = 1) :=
  merge_duplicate_transaction [sampleMint, sampleSwap] sampleMintLive sampleMint
    (by decide) (by decide) (by decide) (by decide) (by decide)

/-- C4, witness: the live copy of `sampleMint` replaces the stored one. -/
theorem merge_last_write_wins_witness :
    ∃ out, eventsReducer [sampleMint, sampleSwap] ⟨"add", [sampleMintLive]⟩ = some out ∧
      out.filter (fun x => eventKey x = "0xe7f1725E_0x3a51") = [sampleMintLive] :=
  merge_last_write_wins [sampleMint, sampleSwap] [sampleMintLive] "0xe7f1725E_0x3a51"
    sampleMintLive (by decide) (by decide)

theorem key_ends_differ (a b : String) : a ++ "_" ++ "1" ≠ b ++ "_" ++ "2" := by
  intro h
  have h2 := congrArg (fun s : String => s.data.getLast?) h
  simp at h2

theorem key_ending_one_ne_proto (a : String) : a ++ "_" ++ "1" ≠ "__proto__" := by
  intro h
  have h2 := congrArg (fun s : String => s.data.getLast?) h
  simp at h2

theorem key_ending_two_ne_proto (a : String) : a ++ "_" ++ "2" ≠ "__proto__" := by
  intro h
  have h2 := congrArg (fun s : String => s.data.getLast?) h
  simp at h2

/-- C5: on the example input (a `Mint` event of address `A`, transaction `1`,
block 5, the same event again, a `Swap` event of address `B`, transaction `2`,
block 6), `cleanEvents` returns exactly two entries: the event of transaction
`2` and then the event of transaction `1`. This holds for all addresses `A` and
`B`, and for all values of the fields that the example leaves open. -/
theorem cleanEvents_example (A B : String) (l1 l2 : Int) (a1 a2 : Args)
    (p1 p2 : Option String) :
    cleanEvents [⟨A, "1", 5, l1, "Mint", a1, p1⟩, ⟨A, "1", 5, l1, "Mint", a1, p1⟩,
        ⟨B, "2", 6, l2, "Swap", a2, p2⟩]
      = [⟨B, "2", 6, l2, "Swap", a2, p2⟩, ⟨A, "1", 5, l1, "Mint", a1, p1⟩] := by
  have h1 := key_ending_one_ne_proto A
  have h2 := key_ending_two_ne_proto B
  have h3 := key_ends_differ A B
  rw [cleanEvents_eq]
  simp [eventsMap, JSObject.assign, JSObject.define, eventKey, h1, h2, h3, jsSort,
    compareEvents]

/-! ## Rendering -/

theorem isSupportedEvent_iff (e : Event) :
    isSupportedEvent e = true ↔ (e.event = "Mint" ∨ e.event = "Swap") := by
  simp [isSupportedEvent]

theorem renderEvent_unsupported (fmt : Option String → Except String String)
    (e : Event) (i : Nat) (h1 : e.event ≠ "Mint") (h2 : e.event ≠ "Swap") :
    renderEvent fmt e i = .ok none := by
  simp [renderEvent, h1, h2, pure, Except.pure]

theorem renderEvent_supported (fmt : Option String → Except String String)
    (e : Event) (i : Nat) (r : Option Row) (hs : isSupportedEvent e = true)
    (h : renderEvent fmt e i = .ok r) :
    ∃ c, r = some ⟨i, e.pairID, c⟩ ∧
      ((e.event = "Mint" ∧ renderMint fmt e.args = .ok c) ∨
        (e.event = "Swap" ∧ renderSwap fmt e.args = .ok c)) := by
  rw [isSupportedEvent_iff] at hs
  unfold renderEvent at h
  by_cases hm : e.event = "Mint"
  · rw [if_pos hm] at h
    cases hc : renderMint fmt e.args with
    | error err => simp [hc, bind, Except.bind] at h
    | ok c =>
      simp [hc, bind, Except.bind, pure, Except.pure] at h
      exact ⟨c, h.symm, Or.inl ⟨hm, rfl⟩⟩
  · have hw : e.event = "Swap" := hs.resolve_left hm
    rw [if_neg hm, if_pos hw] at h
    cases hc : renderSwap fmt e.args with
    | error err => simp [hc, bind, Except.bind] at h
    | ok c =>
      simp [hc, bind, Except.bind, pure, Except.pure] at h
      exact ⟨c, h.symm, Or.inr ⟨hw, rfl⟩⟩

theorem mapWithIndex_rows (fmt : Option String → Except String String)
    (evs : List Event) (hs : ∀ e ∈ evs, isSupportedEvent e = true) :
    ∀ (i : Nat) (rows : List (Option Row)),
      mapWithIndex (renderEvent fmt) i evs = .ok rows →
      List.Forall₂ (fun (p : Nat × Event) (row : Option Row) =>
        ∃ c, row = some ⟨p.1, p.2.pairID, c⟩ ∧
          ((p.2.event = "Mint" ∧ renderMint fmt p.2.args = .ok c) ∨
            (p.2.event = "Swap" ∧ renderSwap fmt p.2.args = .ok c)))
        (evs.enumFrom i) rows := by
  induction evs with
  | nil =>
    intro i rows h
    simp [mapWithIndex] at h
    subst h
    exact List.Forall₂.nil
  | cons e es ih =>
    intro i rows h
    unfold mapWithIndex at h
    cases hr : renderEvent fmt e i with
    | error err => simp [hr, bind, Except.bind] at h
    | ok r =>
      cases hrs : mapWithIndex (renderEvent fmt) (i + 1) es with
      | error err => simp [hr, hrs, bind, Except.bind] at h
      | ok rs =>
        simp [hr, hrs, bind, Except.bind, pure, Except.pure] at h
        subst h
        refine List.Forall₂.cons ?_ ?_
        · exact renderEvent_supported fmt e i r (hs e (List.mem_cons_self _ _)) hr
        · exact ih (fun x hx => hs x (List.mem_cons_of_mem _ hx)) (i + 1) rs hrs

theorem mapWithIndex_total (fmt : Option String → Except String String)
    (evs : List Event)
    (hs : ∀ e ∈ evs, ∀ i, ∃ r, renderEvent fmt e i = .ok r) :
    ∀ i : Nat, ∃ rows, mapWithIndex (renderEvent fmt) i evs = .ok rows := by
  induction evs with
  | nil =>
    intro i
    exact ⟨[], rfl⟩
  | cons e es ih =>
    intro i
    obtain ⟨r, hr⟩ := hs e (List.mem_cons_self _ _) i
    obtain ⟨rs, hrs⟩ := ih (fun x hx => hs x (List.mem_cons_of_mem _ hx)) (i + 1)
    refine ⟨r :: rs, ?_⟩
    unfold mapWithIndex
    simp [hr, hrs, bind, Except.bind, pure, Except.pure]

/-- C6: unsupported kinds are dropped at render time, not at ingestion. Every
entry of the output of `cleanEvents` is an element of the input, and every key
that occurs in an input of chain events occurs in the output, whatever the
kind of the events; an event of a kind other than `Mint` and `Swap` whose key
is unique in `state ++ incoming` is in the list returned by `eventsReducer`,
and is absent from the list that `EventsList` keeps after its
`isSupportedEvent` filter. -/
theorem unsupported_kept_at_ingestion :
    (∀ (xs : List Event) (y : Event), y ∈ cleanEvents xs → y ∈ xs) ∧
    (∀ (xs : List Event), (∀ x ∈ xs, hasChainAddress x = true) →
      ∀ x ∈ xs, eventKey x ∈ (cleanEvents xs).map eventKey) ∧
    (∀ (state incoming : List Event) (e : Event),
      (∀ x ∈ state ++ incoming, hasChainAddress x = true) →
      e ∈ state ++ incoming →
      (∀ x ∈ state ++ incoming, eventKey x = eventKey e → x = e) →
      e.event ≠ "Mint" → e.event ≠ "Swap" →
      ∃ out, eventsReducer state ⟨"add", incoming⟩ = some out ∧ e ∈ out ∧
        e ∉ out.filter isSupportedEvent) := by
  refine ⟨fun xs y h => cleanEvents_subset h, ?_, ?_⟩
  · intro xs hchain x hx
    have hp : eventKey x ≠ "__proto__" := eventKey_ne_proto_of_chain (hchain x hx)
    obtain ⟨y, hy⟩ := lastWithKey_exists hx
    have hyk : eventKey y = eventKey x := (lastWithKey_some hy).2
    have hmem : y ∈ cleanEvents xs :=
      (mem_cleanEvents_iff xs y).2 ⟨by rw [hyk]; exact hp, by rw [hyk]; exact hy⟩
    rw [← hyk]
    exact List.mem_map_of_mem eventKey hmem
  · intro state incoming e hchain he huniq h1 h2
    have hp : eventKey e ≠ "__proto__" := eventKey_ne_proto_of_chain (hchain e he)
    refine ⟨_, eventsReducer_add state incoming, ?_, ?_⟩
    · obtain ⟨y, hy⟩ := lastWithKey_exists he
      have hye : y = e := huniq y (lastWithKey_some hy).1 (lastWithKey_some hy).2
      subst hye
      exact (mem_cleanEvents_iff _ y).2 ⟨hp, hy⟩
    · intro hmem
      have hsup := (List.mem_filter.1 hmem).2
      rcases (isSupportedEvent_iff e).1 hsup with h | h
      · exact h1 h
      · exact h2 h

/-- C6, witness: the `Sync` event arrives with a `Mint` and a `Swap` event; it
stays in the merged list and is not among the events that are rendered. -/
theorem unsupported_kept_at_ingestion_witness :
    ∃ out, eventsReducer [sampleMint] ⟨"add", [sampleSync, sampleSwap]⟩ = some out ∧
      sampleSync ∈ out ∧ sampleSync ∉ out.filter isSupportedEvent :=
  unsupported_kept_at_ingestion.2.2 [sampleMint] [sampleSync, sampleSwap] sampleSync
    (by decide) (by decide) (by decide) (by decide) (by decide)

/-- C7: `isSupportedEvent` holds exactly for the kinds `Mint` and `Swap`;
`renderEvent` yields no row for any other kind; when `EventsList` renders, its
rows are, in the order of the display list, one row for each event of kind
`Mint` or `Swap`, with its position as key, the `pairID` of the event and the
span of its kind; and it renders whenever rendering each supported event
succeeds. -/
theorem eventsList_rows :
    (∀ e : Event, isSupportedEvent e = true ↔ (e.event = "Mint" ∨ e.event = "Swap")) ∧
    (∀ (fmt : Option String → Except String String) (e : Event) (i : Nat),
      e.event ≠ "Mint" → e.event ≠ "Swap" → renderEvent fmt e i = .ok none) ∧
    (∀ (fmt : Option String → Except String String) (events : List Event)
        (rows : List (Option Row)),
      EventsList fmt events = .ok rows →
      List.Forall₂ (fun (p : Nat × Event) (row : Option Row) =>
        ∃ c, row = some ⟨p.1, p.2.pairID, c⟩ ∧
          ((p.2.event = "Mint" ∧ renderMint fmt p.2.args = .ok c) ∨
            (p.2.event = "Swap" ∧ renderSwap fmt p.2.args = .ok c)))
        (events.filter (fun e => e.event = "Mint" ∨ e.event = "Swap")).enum rows) ∧
    (∀ (fmt : Option String → Except String String) (events : List Event),
      (∀ e ∈ events, e.event = "Mint" ∨ e.event = "Swap" →
        ∀ i, ∃ r, renderEvent fmt e i = .ok r) →
      ∃ rows, EventsList fmt events = .ok rows) := by
  have hfilter : ∀ events : List Event,
      events.filter (fun e => decide (e.event = "Mint" ∨ e.event = "Swap"))
        = events.filter isSupportedEvent := by
    intro events
    apply List.filter_congr
    intro e _
    simp [isSupportedEvent]
  refine ⟨isSupportedEvent_iff, renderEvent_unsupported, ?_, ?_⟩
  · intro fmt events rows h
    rw [hfilter]
    exact mapWithIndex_rows fmt _ (fun e he => (List.mem_filter.1 he).2) 0 rows h
  · intro fmt events h
    apply mapWithIndex_total
    intro e he
    have he' := List.mem_filter.1 he
    exact h e he'.1 ((isSupportedEvent_iff e).1 he'.2)

/-- C7, witness: a display list with a `Swap`, a `Sync` and a `Mint` event is
rendered as two rows, for the `Swap` and the `Mint` event. -/
theorem eventsList_rows_witness :
    EventsList sampleFormatUnits [sampleSwap, sampleSync, sampleMintLive]
      = .ok [some ⟨0, none, Span.swap "150" "0x3C44...93BC"⟩,
          some ⟨1, some "ETH/USDC", Span.mint "1000" "2000"⟩] ∧
    List.Forall₂ (fun (p : Nat × Event) (row : Option Row) =>
        ∃ c, row = some ⟨p.1, p.2.pairID, c⟩ ∧
          ((p.2.event = "Mint" ∧ renderMint sampleFormatUnits p.2.args = .ok c) ∨
            (p.2.event = "Swap" ∧ renderSwap sampleFormatUnits p.2.args = .ok c)))
      ([sampleSwap, sampleSync, sampleMintLive].filter
        (fun e => e.event = "Mint" ∨ e.event = "Swap")).enum
      [some ⟨0, none, Span.swap "150" "0x3C44...93BC"⟩,
        some ⟨1, some "ETH/USDC", Span.mint "1000" "2000"⟩] :=
  ⟨rfl, eventsList_rows.2.2.1 sampleFormatUnits _ _ rfl⟩

/-! ## Tagging and the historical query -/

/-- C8: `addPairIDToEvents` returns the entries that are not `null` or
`undefined`, in their original order, each with `pairID` set to
`token0.symbol + "/" + token1.symbol` of the pair and with its address,
transaction hash, block number, log index, kind and arguments unchanged. -/
theorem addPairIDToEvents_frame (events : List (Option Event)) (pair : Pair) :
    (addPairIDToEvents events pair).length = events.reduceOption.length ∧
    List.Forall₂ (fun (ev out : Event) =>
        out.pairID = some (pair.token0.symbol ++ "/" ++ pair.token1.symbol) ∧
        out.address = ev.address ∧ out.transactionHash = ev.transactionHash ∧
        out.blockNumber = ev.blockNumber ∧ out.logIndex = ev.logIndex ∧
        out.event = ev.event ∧ out.args = ev.args)
      events.reduceOption (addPairIDToEvents events pair) := by
  unfold addPairIDToEvents List.reduceOption
  refine ⟨by simp, ?_⟩
  rw [List.forall₂_map_right_iff]
  apply List.forall₂_same.2
  intro ev _
  simp [pairID]

/-- C9: when the `Mint` query resolves to `mints` and the `Swap` query to
`swaps` (each an array or a missing value), `getEvents` resolves to the `Mint`
results followed by the `Swap` results, a missing result counting as empty; so
when both are empty or missing it resolves to the empty sequence. -/
theorem getEvents_resolves (pair : Contract) (mints swaps : Option (List Event))
    (hm : pair.queryFilter "Mint" "earliest" "latest" = .ok mints)
    (hs : pair.queryFilter "Swap" "earliest" "latest" = .ok swaps) :
    getEvents pair = .ok (mints.getD [] ++ swaps.getD []) ∧
    ((mints = none ∨ mints = some []) → (swaps = none ∨ swaps = some []) →
      getEvents pair = .ok []) := by
  have h : getEvents pair = .ok (mints.getD [] ++ swaps.getD []) := by
    simp [getEvents, hm, hs]
  refine ⟨h, ?_⟩
  intro h1 h2
  rw [h]
  rcases h1 with rfl | rfl <;> rcases h2 with rfl | rfl <;> rfl

/-- C9, witness: a pair without events, whose `Mint` query resolves to `null`
and whose `Swap` query resolves to `[]`. -/
theorem getEvents_resolves_witness :
    emptyContract.queryFilter "Mint" "earliest" "latest" = .ok none ∧
    emptyContract.queryFilter "Swap" "earliest" "latest" = .ok (some []) ∧
    getEvents emptyContract = .ok [] :=
  ⟨rfl, rfl, (getEvents_resolves emptyContract none (some []) rfl rfl).2
    (Or.inl rfl) (Or.inr rfl)⟩

/-! ## Token order -/

theorem toLowerCase_zero (cs : List Char) :
    (toLowerCase (String.mk ('0' :: cs))).data = '0' :: cs.map Char.toLower := by
  simp [toLowerCase]

/-- For every first token that starts with the digit `0`, `sortTokens` returns
the two tokens in the order in which they were given. -/
theorem sortTokens_of_zero (cs : List Char) (tokenB : String) :
    sortTokens (String.mk ('0' :: cs)) tokenB = (String.mk ('0' :: cs), tokenB) := by
  have h : jsStringLt (toLowerCase (String.mk ('0' :: cs))) toLowerCaseFunctionText = true := by
    unfold jsStringLt
    rw [toLowerCase_zero]
    have ht : toLowerCaseFunctionText.data
        = 'f' :: ("unction toLowerCase() \x7b [native code] \x7d" : String).data := rfl
    rw [ht]
    simp [codeUnitsLt]
  simp [sortTokens, h]

/-- C10, the code at a failing input: for the `USDC` and `ETH` token addresses
of `pairs`, the lower-cased `ETH` address is the smaller one, yet
`sortTokens(usdc, eth)` returns `(usdc, eth)`, which differs from
`sortTokens(eth, usdc)`; `computePairAddress` packs the two tokens in the
order in which they were given; and `sortTokens` returns its arguments
unchanged whenever the first one starts with the digit `0`. -/
theorem sortTokens_keeps_given_order :
    jsStringLt (toLowerCase ethToken) (toLowerCase usdcToken) = true ∧
    sortTokens usdcToken ethToken = (usdcToken, ethToken) ∧
    sortTokens ethToken usdcToken = (ethToken, usdcToken) ∧
    sortTokens usdcToken ethToken ≠ sortTokens ethToken usdcToken ∧
    (∀ (ethers : Ethers) (factory : String),
      computePairAddress ethers factory usdcToken ethToken
        = ethers.getCreate2Address factory
            (ethers.keccak256
              (ethers.solidityPack ["address", "address"] [usdcToken, ethToken]))
            pairCodeHash ∧
      computePairAddress ethers factory ethToken usdcToken
        = ethers.getCreate2Address factory
            (ethers.keccak256
              (ethers.solidityPack ["address", "address"] [ethToken, usdcToken]))
            pairCodeHash) ∧
    (∀ (cs : List Char) (tokenB : String),
      sortTokens (String.mk ('0' :: cs)) tokenB = (String.mk ('0' :: cs), tokenB)) := by
  have h1 : sortTokens usdcToken ethToken = (usdcToken, ethToken) := by decide
  have h2 : sortTokens ethToken usdcToken = (ethToken, usdcToken) := by decide
  refine ⟨by decide, h1, h2, by decide, ?_, sortTokens_of_zero⟩
  intro ethers factory
  simp only [computePairAddress, h1, h2, and_self]

/-! ## Arrival order and idempotence -/

theorem JSObject.define_of_not_mem {α : Type} (o : JSObject α) (k : String) (v : α)
    (h : k ∉ o.map Prod.fst) : JSObject.define o k v = o ++ [(k, v)] := by
  induction o with
  | nil => rfl
  | cons p rest ih =>
    obtain ⟨k1, v1⟩ := p
    simp only [List.map_cons, List.mem_cons, not_or] at h
    have hne : ¬ k1 = k := fun e => h.1 e.symm
    simp [JSObject.define, hne, ih h.2]

/-- On a list whose keys are pairwise distinct and never `"__proto__"`, the
dictionary holds the events themselves, in the order of the list. -/
theorem eventsMap_of_nodup (xs : List Event) (hnd : (xs.map eventKey).Nodup)
    (hp : ∀ x ∈ xs, eventKey x ≠ "__proto__") :
    eventsMap xs = xs.map (fun e => (eventKey e, e)) := by
  induction xs using List.reverseRecOn with
  | nil => rfl
  | append_singleton xs x ih =>
    rw [List.map_append, List.nodup_append] at hnd
    have hx : eventKey x ≠ "__proto__" := hp x (by simp)
    have ih' := ih hnd.1 (fun y hy => hp y (List.mem_append_left _ hy))
    have hnot : eventKey x ∉ (xs.map (fun e => (eventKey e, e))).map Prod.fst := by
      rw [List.map_map]
      intro hm
      exact hnd.2.2 hm (by simp)
    rw [eventsMap_concat, ih']
    unfold JSObject.assign
    rw [if_neg hx, JSObject.define_of_not_mem _ _ _ hnot]
    simp

theorem cleanEvents_key_ne_proto {xs : List Event} {y : Event}
    (h : y ∈ cleanEvents xs) : eventKey y ≠ "__proto__" :=
  ((mem_cleanEvents_iff xs y).1 h).1

theorem cleanEvents_sorted_compare (xs : List Event) :
    (cleanEvents xs).Sorted (fun a b => compareEvents a b ≤ 0) := by
  rw [cleanEvents_eq]
  exact jsSort_compareEvents_sorted _

/-- A list with pairwise distinct keys other than `"__proto__"` that is already
in comparator order is returned unchanged by `cleanEvents`. -/
theorem cleanEvents_of_clean (xs : List Event) (hnd : (xs.map eventKey).Nodup)
    (hp : ∀ x ∈ xs, eventKey x ≠ "__proto__")
    (hs : xs.Sorted (fun a b => compareEvents a b ≤ 0)) :
    cleanEvents xs = xs := by
  rw [cleanEvents_eq, eventsMap_of_nodup xs hnd hp, List.map_map]
  have hid : xs.map (Prod.snd ∘ fun e => (eventKey e, e)) = xs := by
    simp [Function.comp_def]
  rw [hid]
  exact List.Sorted.insertionSort_eq hs

theorem cleanEvents_idem (xs : List Event) :
    cleanEvents (cleanEvents xs) = cleanEvents xs :=
  cleanEvents_of_clean _ (cleanEvents_keys_nodup xs)
    (fun _ hy => cleanEvents_key_ne_proto hy) (cleanEvents_sorted_compare xs)

/-- C12: `cleanEvents` is idempotent, and an `add` action with the empty batch
leaves every state produced by a previous `add` unchanged (the same entries in
the same order). -/
theorem cleanEvents_idempotent (xs state incoming : List Event) :
    cleanEvents (cleanEvents xs) = cleanEvents xs ∧
    ∃ out, eventsReducer state ⟨"add", incoming⟩ = some out ∧
      eventsReducer out ⟨"add", []⟩ = some out := by
  refine ⟨cleanEvents_idem xs, _, eventsReducer_add state incoming, ?_⟩
  rw [eventsReducer_add, List.append_nil, cleanEvents_idem]

/-- When events of `xs` that share a key are equal, the entries of
`cleanEvents xs` are the events of `xs` whose key is not `"__proto__"`. -/
theorem mem_cleanEvents_of_identical (xs : List Event)
    (hsame : ∀ x ∈ xs, ∀ y ∈ xs, eventKey x = eventKey y → x = y) (y : Event) :
    y ∈ cleanEvents xs ↔ y ∈ xs ∧ eventKey y ≠ "__proto__" := by
  constructor
  · intro h
    exact ⟨cleanEvents_subset h, cleanEvents_key_ne_proto h⟩
  · rintro ⟨hy, hp⟩
    obtain ⟨z, hz⟩ := lastWithKey_exists hy
    have hzy : z = y := hsame z (lastWithKey_some hz).1 y hy (lastWithKey_some hz).2
    rw [hzy] at hz
    exact (mem_cleanEvents_iff xs y).2 ⟨hp, hz⟩

/-- Two outputs of `cleanEvents` with the same entries are the same list, when
the comparator ties no two distinct entries. -/
theorem cleanEvents_eq_of_same_members (xs ys : List Event)
    (hmem : ∀ y, y ∈ cleanEvents xs ↔ y ∈ cleanEvents ys)
    (hanti : ∀ a ∈ cleanEvents xs, ∀ b ∈ cleanEvents xs,
      compareEvents a b ≤ 0 → compareEvents b a ≤ 0 → a = b) :
    cleanEvents xs = cleanEvents ys := by
  have hn1 : (cleanEvents xs).Nodup := List.Nodup.of_map eventKey (cleanEvents_keys_nodup xs)
  have hn2 : (cleanEvents ys).Nodup := List.Nodup.of_map eventKey (cleanEvents_keys_nodup ys)
  have hperm : (cleanEvents xs).Perm (cleanEvents ys) :=
    (List.perm_ext_iff_of_nodup hn1 hn2).2 hmem
  refine List.Perm.eq_of_sorted ?_ (cleanEvents_sorted_compare xs)
    (cleanEvents_sorted_compare ys) hperm
  intro a b ha hb hab hba
  exact hanti a ha b ((hmem b).2 hb) hab hba

/-- C11: when events of the two batches that share a key are identical and
events with different keys differ in block number or log index, adding `H` and
then `L` to the empty list gives the same list as adding `L` and then `H`, and
both are `cleanEvents (H ++ L)`. -/
theorem merge_order_independent (H L : List Event)
    (hsame : ∀ x ∈ H ++ L, ∀ y ∈ H ++ L, eventKey x = eventKey y → x = y)
    (hdiff : ∀ x ∈ H ++ L, ∀ y ∈ H ++ L, eventKey x ≠ eventKey y →
      ¬ (x.blockNumber = y.blockNumber ∧ x.logIndex = y.logIndex)) :
    ∃ s1 s2 t1 t2,
      eventsReducer [] ⟨"add", H⟩ = some s1 ∧ eventsReducer s1 ⟨"add", L⟩ = some s2 ∧
      eventsReducer [] ⟨"add", L⟩ = some t1 ∧ eventsReducer t1 ⟨"add", H⟩ = some t2 ∧
      s2 = t2 ∧ s2 = cleanEvents (H ++ L) := by
  refine ⟨_, _, _, _, eventsReducer_add [] H, eventsReducer_add _ L,
    eventsReducer_add [] L, eventsReducer_add _ H, ?_⟩
  simp only [List.nil_append]
  -- entries of the three lists
  have hsub : ∀ zs : List Event, (∀ z ∈ zs, z ∈ H ++ L) →
      ∀ x ∈ zs, ∀ y ∈ zs, eventKey x = eventKey y → x = y :=
    fun zs hz x hx y hy => hsame x (hz x hx) y (hz y hy)
  have hH : ∀ y, y ∈ cleanEvents H ↔ y ∈ H ∧ eventKey y ≠ "__proto__" :=
    mem_cleanEvents_of_identical H (hsub H (fun z hz => List.mem_append_left _ hz))
  have hL : ∀ y, y ∈ cleanEvents L ↔ y ∈ L ∧ eventKey y ≠ "__proto__" :=
    mem_cleanEvents_of_identical L (hsub L (fun z hz => List.mem_append_right _ hz))
  have hHL : ∀ y, y ∈ cleanEvents (H ++ L) ↔ y ∈ H ++ L ∧ eventKey y ≠ "__proto__" :=
    mem_cleanEvents_of_identical (H ++ L) hsame
  have hin1 : ∀ z ∈ cleanEvents H ++ L, z ∈ H ++ L := by
    intro z hz
    rcases List.mem_append.1 hz with h | h
    · exact List.mem_append_left _ (cleanEvents_subset h)
    · exact List.mem_append_right _ h
  have hin2 : ∀ z ∈ cleanEvents L ++ H, z ∈ H ++ L := by
    intro z hz
    rcases List.mem_append.1 hz with h | h
    · exact List.mem_append_right _ (cleanEvents_subset h)
    · exact List.mem_append_left _ h
  have h1 : ∀ y, y ∈ cleanEvents (H ++ L) ↔ y ∈ cleanEvents (cleanEvents H ++ L) := by
    intro y
    rw [hHL, mem_cleanEvents_of_identical _ (hsub _ hin1), List.mem_append,
      List.mem_append, hH]
    tauto
  have h2 : ∀ y, y ∈ cleanEvents (H ++ L) ↔ y ∈ cleanEvents (cleanEvents L ++ H) := by
    intro y
    rw [hHL, mem_cleanEvents_of_identical _ (hsub _ hin2), List.mem_append,
      List.mem_append, hL]
    tauto
  have hanti : ∀ a ∈ cleanEvents (H ++ L), ∀ b ∈ cleanEvents (H ++ L),
      compareEvents a b ≤ 0 → compareEvents b a ≤ 0 → a = b := by
    intro a ha b hb hab hba
    have haU := cleanEvents_subset ha
    have hbU := cleanEvents_subset hb
    by_cases hk : eventKey a = eventKey b
    · exact hsame a haU b hbU hk
    · exfalso
      apply hdiff a haU b hbU hk
      rw [compareEvents_le_zero_iff] at hab hba
      omega
  have e1 := cleanEvents_eq_of_same_members _ _ h1 hanti
  have e2 := cleanEvents_eq_of_same_members _ _ h2 hanti
  exact ⟨by rw [← e1, ← e2], e1.symm⟩

/-- C11, witness: a historical batch and a live batch that overlap in the
`Mint` event. -/
theorem merge_order_independent_witness :
    ∃ s1 s2 t1 t2,
      eventsReducer [] ⟨"add", [sampleMintLive, sampleSwap]⟩ = some s1 ∧
      eventsReducer s1 ⟨"add", [sampleSync, sampleMintLive]⟩ = some s2 ∧
      eventsReducer [] ⟨"add", [sampleSync, sampleMintLive]⟩ = some t1 ∧
      eventsReducer t1 ⟨"add", [sampleMintLive, sampleSwap]⟩ = some t2 ∧
      s2 = t2 ∧
      s2 = cleanEvents ([sampleMintLive, sampleSwap] ++ [sampleSync, sampleMintLive]) :=
  merge_order_independent [sampleMintLive, sampleSwap] [sampleSync, sampleMintLive]
    (by decide) (by decide)

end ArcadeSwap
